import Mathlib

/-!
Shallow embedding of `src/verificateur.py`, a propositional-logic
verification engine: expression trees with boolean evaluation, a
tokenizer and recursive-descent parser, enumeration of all valuations,
and the decision procedures `is_satisfiable`, `entails`,
`is_contradiction`, `is_tautology` and `find_counterexample`.

Machine representation choices:
* Python dicts of booleans become association lists (`Valuation`);
  `valuation[name]` becomes `List.lookup`, whose `none` result stands for
  the Python `KeyError` (UndefinedVariable).
* `Expr.eval` returns `Option Bool`: `none` models the propagated
  `KeyError`; the decision procedures always build total valuations, so
  the `none` case never arises on their call paths.
* The tokenizer and the mutually recursive parser are indexed by fuel so
  that every definition is structurally recursive and kernel-computable.
  Fuel strictly exceeds every possible recursion depth of the Python
  code on the same input (`tokenize` consumes at least one character per
  step; the parser's call depth between two consumed tokens is bounded
  by the six grammar levels), so the fuel-exhaustion branches are dead
  code for the fuel supplied by `tokenize` and `parse`.
-/

namespace Verificateur

/-- The tagged-variant expression tree of `verificateur.py` (classes
`Var`, `Not`, `And`, `Or`, `Implies`, `Iff`, all subclasses of `Expr`). -/
inductive Expr : Type where
  | Var (name : String)
  | Not (child : Expr)
  | And (left : Expr) (right : Expr)
  | Or (left : Expr) (right : Expr)
  | Implies (left : Expr) (right : Expr)
  | Iff (left : Expr) (right : Expr)
deriving DecidableEq

/-- A Python valuation dict `{name: bool}`, as an association list. -/
abbrev Valuation := List (String × Bool)

/-- `Expr.eval`: the `eval` methods of the six classes.  `Var` looks the
name up in the valuation (`none` = Python `KeyError`); the boolean
connectives mirror Python's `not`/`and`/`or`/`==` on booleans, including
the evaluation order and short-circuiting of `and`, `or` and
`(not l) or r`. -/
def Expr.eval : Expr → Valuation → Option Bool
  | .Var n, v => v.lookup n
  | .Not c, v => (c.eval v).map (fun b => !b)
  | .And l r, v => (l.eval v).bind (fun lb => if lb then r.eval v else some false)
  | .Or l r, v => (l.eval v).bind (fun lb => if lb then some true else r.eval v)
  | .Implies l r, v => (l.eval v).bind (fun lb => if !lb then some true else r.eval v)
  | .Iff l r, v => (l.eval v).bind (fun lb => (r.eval v).map (fun rb => lb == rb))

/-- The `vars` methods: the multiset of variable occurrences, as a list.
The Python code returns a set; membership in this list is the same set. -/
def Expr.varsList : Expr → List String
  | .Var n => [n]
  | .Not c => c.varsList
  | .And l r => l.varsList ++ r.varsList
  | .Or l r => l.varsList ++ r.varsList
  | .Implies l r => l.varsList ++ r.varsList
  | .Iff l r => l.varsList ++ r.varsList

/-! ### Lexer -/

/-- Whitespace skipped by the `\s*` prefix of `_TOKEN_RE` (the ASCII
whitespace characters matched by Python's `\s`). -/
def isPySpace (c : Char) : Bool :=
  c = ' ' || c = '\t' || c = '\n' || c = '\r' || c = '\x0b' || c = '\x0c'

/-- First character of an identifier: `[A-Za-z_]`. -/
def isIdentStart (c : Char) : Bool :=
  c.isAlpha || c = '_'

/-- Subsequent identifier characters: `[A-Za-z0-9_]`. -/
def isIdentChar (c : Char) : Bool :=
  c.isAlphanum || c = '_'

/-- One scanning step of `_TOKEN_RE.findall`, fuel-indexed (each step
consumes at least one character, so fuel = input length suffices).
Alternatives are tried in the regex order: skip whitespace, `<->`, `->`,
the single characters `()~&|`, a maximal identifier run, then any other
single non-whitespace character (the `\S` fallback). -/
def tokChars : Nat → List Char → List String
  | _, [] => []
  | 0, _ :: _ => []
  | f+1, c :: cs =>
    if isPySpace c then tokChars f cs
    else if c = '<' ∧ cs.take 2 = ['-', '>'] then "<->" :: tokChars f (cs.drop 2)
    else if c = '-' ∧ cs.take 1 = ['>'] then "->" :: tokChars f (cs.drop 1)
    else if c ∈ (['(', ')', '~', '&', '|'] : List Char) then
      String.mk [c] :: tokChars f cs
    else if isIdentStart c then
      String.mk (c :: cs.takeWhile isIdentChar) :: tokChars f (cs.dropWhile isIdentChar)
    else String.mk [c] :: tokChars f cs

/-- `tokChars` with the canonical (sufficient) fuel. -/
def tokenizeChars (l : List Char) : List String :=
  tokChars l.length l

/-- `tokenize`: `_TOKEN_RE.findall(s)` (an empty result stays `[]`). -/
def tokenize (s : String) : List String :=
  tokenizeChars s.data

/-! ### Parser -/

/-- The distinct `ParserError` situations raised by the source, named
after the spec's error taxonomy.  `OutOfFuel` is the artificial
fuel-exhaustion result of the embedding; it is unreachable for the fuel
supplied by `parse`. -/
inductive ParserError : Type where
  | EmptyExpression
  | UnexpectedToken (t : String)
  | UnexpectedEndOfInput
  | UnmatchedParenthesis
  | OutOfFuel
deriving DecidableEq

instance {ε α : Type} [DecidableEq ε] [DecidableEq α] : DecidableEq (Except ε α) := fun x y =>
  match x, y with
  | .ok a, .ok b =>
    if h : a = b then isTrue (by rw [h]) else isFalse (by intro he; cases he; exact h rfl)
  | .ok _, .error _ => isFalse (by intro h; cases h)
  | .error _, .ok _ => isFalse (by intro h; cases h)
  | .error e, .error f =>
    if h : e = f then isTrue (by rw [h]) else isFalse (by intro he; cases he; exact h rfl)

/-- Result of one parsing routine: the parsed expression plus the
remaining tokens (the Python parser's `self.pos` cursor), or an error. -/
abbrev PResult := Except ParserError (Expr × List String)

/-- `re.match(r'[A-Za-z_][A-Za-z0-9_]*', t)` in `parse_atom`: `re.match`
anchors only at the start, so it succeeds exactly when the first
character of `t` is `[A-Za-z_]`. -/
def isVarToken (t : String) : Bool :=
  match t.data with
  | [] => false
  | c :: _ => isIdentStart c

/-- A full identifier: nonempty, `[A-Za-z_][A-Za-z0-9_]*`.  These are
exactly the strings the lexer emits as identifier tokens. -/
def isIdentString (t : String) : Bool :=
  match t.data with
  | [] => false
  | c :: cs => isIdentStart c && cs.all isIdentChar

mutual

/-- `Parser.parse_iff`: `imp ('<->' imp)*`, folding left. -/
def parse_iff : Nat → List String → PResult
  | 0, _ => .error .OutOfFuel
  | fuel+1, ts =>
    match parse_imp fuel ts with
    | .ok (left, rest) => parse_iff_loop fuel left rest
    | .error e => .error e

/-- The `while self.peek() == '<->'` loop of `parse_iff`. -/
def parse_iff_loop : Nat → Expr → List String → PResult
  | 0, _, _ => .error .OutOfFuel
  | fuel+1, left, ts =>
    match ts with
    | t :: rest =>
      if t = "<->" then
        match parse_imp fuel rest with
        | .ok (right, rest') => parse_iff_loop fuel (.Iff left right) rest'
        | .error e => .error e
      else .ok (left, ts)
    | [] => .ok (left, ts)

/-- `Parser.parse_imp`: `or_expr ('->' imp)?`, right-associative via the
recursive call. -/
def parse_imp : Nat → List String → PResult
  | 0, _ => .error .OutOfFuel
  | fuel+1, ts =>
    match parse_or fuel ts with
    | .ok (left, rest) =>
      match rest with
      | t :: rest2 =>
        if t = "->" then
          match parse_imp fuel rest2 with
          | .ok (right, rest') => .ok (.Implies left right, rest')
          | .error e => .error e
        else .ok (left, rest)
      | [] => .ok (left, rest)
    | .error e => .error e

/-- `Parser.parse_or`: `and_expr ('|' and_expr)*`, folding left. -/
def parse_or : Nat → List String → PResult
  | 0, _ => .error .OutOfFuel
  | fuel+1, ts =>
    match parse_and fuel ts with
    | .ok (left, rest) => parse_or_loop fuel left rest
    | .error e => .error e

/-- The `while self.peek() == '|'` loop of `parse_or`. -/
def parse_or_loop : Nat → Expr → List String → PResult
  | 0, _, _ => .error .OutOfFuel
  | fuel+1, left, ts =>
    match ts with
    | t :: rest =>
      if t = "|" then
        match parse_and fuel rest with
        | .ok (right, rest') => parse_or_loop fuel (.Or left right) rest'
        | .error e => .error e
      else .ok (left, ts)
    | [] => .ok (left, ts)

/-- `Parser.parse_and`: `not_expr ('&' not_expr)*`, folding left. -/
def parse_and : Nat → List String → PResult
  | 0, _ => .error .OutOfFuel
  | fuel+1, ts =>
    match parse_not fuel ts with
    | .ok (left, rest) => parse_and_loop fuel left rest
    | .error e => .error e

/-- The `while self.peek() == '&'` loop of `parse_and`. -/
def parse_and_loop : Nat → Expr → List String → PResult
  | 0, _, _ => .error .OutOfFuel
  | fuel+1, left, ts =>
    match ts with
    | t :: rest =>
      if t = "&" then
        match parse_not fuel rest with
        | .ok (right, rest') => parse_and_loop fuel (.And left right) rest'
        | .error e => .error e
      else .ok (left, ts)
    | [] => .ok (left, ts)

/-- `Parser.parse_not`: `'~' not_expr | atom`, nesting to the right. -/
def parse_not : Nat → List String → PResult
  | 0, _ => .error .OutOfFuel
  | fuel+1, ts =>
    match ts with
    | t :: rest =>
      if t = "~" then
        match parse_not fuel rest with
        | .ok (child, rest') => .ok (.Not child, rest')
        | .error e => .error e
      else parse_atom fuel ts
    | [] => parse_atom fuel ts

/-- `Parser.parse_atom`: `VAR | '(' iff ')'`.  A missing token is
`UnexpectedEndOfInput` ("Unexpected end of input"); after a
parenthesized subexpression, `self.pop() != ')'` is
`UnmatchedParenthesis` ("Expected ')'"); a token that is neither `(`
nor an identifier is `UnexpectedToken` ("Unexpected token ..."). -/
def parse_atom : Nat → List String → PResult
  | 0, _ => .error .OutOfFuel
  | fuel+1, ts =>
    match ts with
    | [] => .error .UnexpectedEndOfInput
    | t :: rest =>
      if t = "(" then
        match parse_iff fuel rest with
        | .ok (e, rest') =>
          match rest' with
          | t2 :: rest2 => if t2 = ")" then .ok (e, rest2) else .error .UnmatchedParenthesis
          | [] => .error .UnmatchedParenthesis
        | .error err => .error err
      else if isVarToken t then .ok (.Var t, rest)
      else .error (.UnexpectedToken t)

end

/-- `parse(s)`: tokenize, reject an empty token list ("Expression vide"
= EmptyExpression), run `Parser.parse`, and reject leftover tokens
("Unexpected token ...").  The fuel `9 * tokens.length + 9` dominates
the Python parser's recursion depth on the same token list. -/
def parse (s : String) : Except ParserError Expr :=
  let tokens := tokenize s
  if tokens = [] then .error .EmptyExpression
  else
    match parse_iff (9 * tokens.length + 9) tokens with
    | .ok (e, leftover) =>
      match leftover with
      | t :: _ => .error (.UnexpectedToken t)
      | [] => .ok e
    | .error e => .error e

/-! ### Valuation enumeration -/

/-- All boolean tuples of length `n` in the order of
`itertools.product([False, True], repeat=n)`: the first position varies
slowest (it is the most significant bit). -/
def boolTuples : Nat → List (List Bool)
  | 0 => [[]]
  | n+1 => ([false, true]).flatMap (fun b => (boolTuples n).map (fun t => b :: t))

/-- `all_valuations`: for each tuple of bits, the dict
`dict(zip(vars_list, bits))`. -/
def all_valuations (vars_list : List String) : List Valuation :=
  (boolTuples vars_list.length).map (fun bits => vars_list.zip bits)

/-- The `n`-bit binary digits of `i`, most significant first.  Used only
to state that the enumeration order is the counting order `0..2^n - 1`. -/
def natBits : Nat → Nat → List Bool
  | 0, _ => []
  | n+1, i => decide (2 ^ n ≤ i) :: natBits n (i % 2 ^ n)

/-! ### Variable collection and sorting -/

/-- Lexicographic comparison of char lists by code point, the order
Python's `sorted` uses on strings. -/
def charListLe : List Char → List Char → Bool
  | [], _ => true
  | _ :: _, [] => false
  | a :: as, b :: bs =>
    if a.toNat < b.toNat then true
    else if b.toNat < a.toNat then false
    else charListLe as bs

/-- String comparison for `sorted`. -/
def strLe (a b : String) : Bool :=
  charListLe a.data b.data

/-- Insert into a sorted list of variable names. -/
def insertSorted (x : String) : List String → List String
  | [] => [x]
  | y :: ys => if strLe x y then x :: y :: ys else y :: insertSorted x ys

/-- Insertion sort implementing Python's `sorted` on a list of distinct
strings (any correct sort agrees on a duplicate-free list). -/
def sortStrings : List String → List String
  | [] => []
  | x :: xs => insertSorted x (sortStrings xs)

/-- The accumulated `vars_set |= a.vars()` union, as a list. -/
def varsUnion (es : List Expr) : List String :=
  es.foldr (fun e acc => e.varsList ++ acc) []

/-- `sorted(vars_set)`: the lexicographically sorted, deduplicated union
of the free variables of `es`. -/
def sortedVars (es : List Expr) : List String :=
  sortStrings (varsUnion es).dedup

/-! ### Decision procedures -/

/-- `all(a.eval(v) for a in axioms)`: every axiom evaluates to true. -/
def qual (axioms : List Expr) (v : Valuation) : Bool :=
  axioms.all (fun a => a.eval v == some true)

/-- The loop of `is_satisfiable`: collect qualifying valuations,
stopping once `len(models) >= max_models` (checked after appending). -/
def satLoop (axioms : List Expr) (max_models : Nat) :
    List Valuation → List Valuation → List Valuation
  | [], models => models
  | v :: rest, models =>
    if qual axioms v then
      if max_models ≤ (models ++ [v]).length then models ++ [v]
      else satLoop axioms max_models rest (models ++ [v])
    else satLoop axioms max_models rest models

/-- `is_satisfiable(axioms, max_models)`:
`(len(models) > 0, models)`. -/
def is_satisfiable (axioms : List Expr) (max_models : Nat) : Bool × List Valuation :=
  let models := satLoop axioms max_models (all_valuations (sortedVars axioms)) []
  (decide (0 < models.length), models)

/-- The counterexample test shared by `entails` and
`find_counterexample`: `all(a.eval(v) for a in axioms) and not
proposition.eval(v)`. -/
def counterexample_cond (axioms : List Expr) (proposition : Expr) (v : Valuation) : Bool :=
  qual axioms v && (proposition.eval v == some false)

/-- `entails(axioms, proposition)`: if the axioms are unsatisfiable
(checked with `max_models=1000000`), return `True` (ex falso); otherwise
scan every valuation over the sorted union of the variables of the
axioms and the proposition for a counterexample. -/
def entails (axioms : List Expr) (proposition : Expr) : Bool :=
  if (is_satisfiable axioms 1000000).1 = false then true
  else
    !((all_valuations (sortedVars (axioms ++ [proposition]))).any
        (counterexample_cond axioms proposition))

/-- `is_contradiction(expr)`: no valuation over `sorted(expr.vars())`
makes `expr` evaluate to true. -/
def is_contradiction (expr : Expr) : Bool :=
  (all_valuations (sortedVars [expr])).all (fun v => !(expr.eval v == some true))

/-- `is_tautology(expr)`: no valuation over `sorted(expr.vars())` makes
`expr` evaluate to false. -/
def is_tautology (expr : Expr) : Bool :=
  (all_valuations (sortedVars [expr])).all (fun v => !(expr.eval v == some false))

/-- `find_counterexample(axioms, proposition)`: the first valuation in
enumeration order satisfying every axiom and falsifying the
proposition. -/
def find_counterexample (axioms : List Expr) (proposition : Expr) : Option Valuation :=
  (all_valuations (sortedVars (axioms ++ [proposition]))).find?
    (counterexample_cond axioms proposition)

/-- The model list claimed by the spec for `is_satisfiable`: the
qualifying valuations in enumeration order, truncated to `maxModels`
("collect qualifying valuations until ... maxModels are collected").
Stated from the spec's words, for comparison with the source's
`is_satisfiable`. -/
def specCollectedModels (axioms : List Expr) (maxModels : Nat) : List Valuation :=
  ((all_valuations (sortedVars axioms)).filter (qual axioms)).take maxModels

/-- `n`-fold negation, for stating that `~` nests without limit. -/
def notPow : Nat → Expr → Expr
  | 0, e => e
  | n+1, e => .Not (notPow n e)

/-- A list of axioms is satisfied by a valuation (propositional form of
`qual`). -/
def Satisfies (axioms : List Expr) (v : Valuation) : Prop :=
  ∀ a ∈ axioms, a.eval v = some true

/-- The valuation assigning `f n` to each `n` in `l`, in order. -/
def funValuation (l : List String) (f : String → Bool) : Valuation :=
  l.map (fun n => (n, f n))

/-! ### Basic lemmas about evaluation -/

theorem qual_eq_true_iff (axioms : List Expr) (v : Valuation) :
    qual axioms v = true ↔ Satisfies axioms v := by
  simp [qual, Satisfies, List.all_eq_true]

/-- Evaluation only reads the valuation at the expression's free
variables. -/
theorem eval_congr (e : Expr) : ∀ (v1 v2 : Valuation),
    (∀ n ∈ e.varsList, v1.lookup n = v2.lookup n) → e.eval v1 = e.eval v2 := by
  induction e with
  | Var n =>
    intro v1 v2 h
    simpa [Expr.eval] using h n (by simp [Expr.varsList])
  | Not c ih =>
    intro v1 v2 h
    simp [Expr.eval, ih v1 v2 (fun n hn => h n (by simpa [Expr.varsList] using hn))]
  | And l r ihl ihr =>
    intro v1 v2 h
    have hl := ihl v1 v2 (fun n hn => h n (by simp [Expr.varsList, hn]))
    have hr := ihr v1 v2 (fun n hn => h n (by simp [Expr.varsList, hn]))
    simp [Expr.eval, hl, hr]
  | Or l r ihl ihr =>
    intro v1 v2 h
    have hl := ihl v1 v2 (fun n hn => h n (by simp [Expr.varsList, hn]))
    have hr := ihr v1 v2 (fun n hn => h n (by simp [Expr.varsList, hn]))
    simp [Expr.eval, hl, hr]
  | Implies l r ihl ihr =>
    intro v1 v2 h
    have hl := ihl v1 v2 (fun n hn => h n (by simp [Expr.varsList, hn]))
    have hr := ihr v1 v2 (fun n hn => h n (by simp [Expr.varsList, hn]))
    simp [Expr.eval, hl, hr]
  | Iff l r ihl ihr =>
    intro v1 v2 h
    have hl := ihl v1 v2 (fun n hn => h n (by simp [Expr.varsList, hn]))
    have hr := ihr v1 v2 (fun n hn => h n (by simp [Expr.varsList, hn]))
    simp [Expr.eval, hl, hr]

/-- On a valuation defined at all its free variables, evaluation cannot
raise `KeyError`. -/
theorem eval_isSome (e : Expr) : ∀ (v : Valuation),
    (∀ n ∈ e.varsList, (v.lookup n).isSome) → (e.eval v).isSome := by
  induction e with
  | Var n =>
    intro v h
    simpa [Expr.eval] using h n (by simp [Expr.varsList])
  | Not c ih =>
    intro v h
    have := ih v (fun n hn => h n (by simpa [Expr.varsList] using hn))
    obtain ⟨b, hb⟩ := Option.isSome_iff_exists.mp this
    simp [Expr.eval, hb]
  | And l r ihl ihr =>
    intro v h
    have hl := ihl v (fun n hn => h n (by simp [Expr.varsList, hn]))
    have hr := ihr v (fun n hn => h n (by simp [Expr.varsList, hn]))
    obtain ⟨lb, hlb⟩ := Option.isSome_iff_exists.mp hl
    obtain ⟨rb, hrb⟩ := Option.isSome_iff_exists.mp hr
    cases lb <;> simp [Expr.eval, hlb, hrb]
  | Or l r ihl ihr =>
    intro v h
    have hl := ihl v (fun n hn => h n (by simp [Expr.varsList, hn]))
    have hr := ihr v (fun n hn => h n (by simp [Expr.varsList, hn]))
    obtain ⟨lb, hlb⟩ := Option.isSome_iff_exists.mp hl
    obtain ⟨rb, hrb⟩ := Option.isSome_iff_exists.mp hr
    cases lb <;> simp [Expr.eval, hlb, hrb]
  | Implies l r ihl ihr =>
    intro v h
    have hl := ihl v (fun n hn => h n (by simp [Expr.varsList, hn]))
    have hr := ihr v (fun n hn => h n (by simp [Expr.varsList, hn]))
    obtain ⟨lb, hlb⟩ := Option.isSome_iff_exists.mp hl
    obtain ⟨rb, hrb⟩ := Option.isSome_iff_exists.mp hr
    cases lb <;> simp [Expr.eval, hlb, hrb]
  | Iff l r ihl ihr =>
    intro v h
    have hl := ihl v (fun n hn => h n (by simp [Expr.varsList, hn]))
    have hr := ihr v (fun n hn => h n (by simp [Expr.varsList, hn]))
    obtain ⟨lb, hlb⟩ := Option.isSome_iff_exists.mp hl
    obtain ⟨rb, hrb⟩ := Option.isSome_iff_exists.mp hr
    simp [Expr.eval, hlb, hrb]

/-! ### Lemmas about the valuation enumeration -/

theorem length_of_mem_boolTuples : ∀ (n : Nat) (t : List Bool),
    t ∈ boolTuples n → t.length = n := by
  intro n
  induction n with
  | zero => intro t ht; simp [boolTuples] at ht; simp [ht]
  | succ n ih =>
    intro t ht
    simp only [boolTuples, List.mem_flatMap, List.mem_map] at ht
    obtain ⟨b, _, s, hs, rfl⟩ := ht
    simp [ih s hs]

theorem self_mem_boolTuples : ∀ (bs : List Bool), bs ∈ boolTuples bs.length := by
  intro bs
  induction bs with
  | nil => simp [boolTuples]
  | cons b t ih =>
    simp only [List.length_cons, boolTuples, List.mem_flatMap, List.mem_map]
    exact ⟨b, by cases b <;> simp, t, ih, rfl⟩

theorem lookup_zip_isSome : ∀ (l : List String) (bs : List Bool) (n : String),
    l.length = bs.length → n ∈ l → ((l.zip bs).lookup n).isSome := by
  intro l
  induction l with
  | nil => intro bs n _ hn; cases hn
  | cons m ms ih =>
    intro bs n hlen hn
    cases bs with
    | nil => cases hlen
    | cons b bs =>
      by_cases hm : n = m
      · simp [List.zip, List.lookup, hm]
      · have hn' : n ∈ ms := by
          cases List.mem_cons.mp hn with
          | inl h => exact absurd h hm
          | inr h => exact h
        have : (n == m) = false := by simp [hm]
        simpa [List.zip, List.lookup, this] using
          ih bs n (by simpa using hlen) hn'

/-- Every enumerated valuation is defined on every enumerated name. -/
theorem mem_all_valuations_lookup_isSome {l : List String} {v : Valuation}
    (hv : v ∈ all_valuations l) : ∀ n ∈ l, (v.lookup n).isSome := by
  intro n hn
  simp only [all_valuations, List.mem_map] at hv
  obtain ⟨bits, hbits, rfl⟩ := hv
  exact lookup_zip_isSome l bits n (length_of_mem_boolTuples _ _ hbits).symm hn

theorem zip_self_map (f : String → Bool) : ∀ (l : List String),
    l.zip (l.map f) = l.map (fun n => (n, f n)) := by
  intro l
  induction l with
  | nil => rfl
  | cons a t ih =>
    simp only [List.zip, List.zipWith, List.map]
    exact congrArg (List.cons (a, f a)) (by simpa [List.zip] using ih)

theorem funValuation_mem_all_valuations (l : List String) (f : String → Bool) :
    funValuation l f ∈ all_valuations l := by
  simp only [all_valuations, List.mem_map]
  refine ⟨l.map f, ?_, ?_⟩
  · have := self_mem_boolTuples (l.map f)
    simpa using this
  · rw [zip_self_map]
    rfl

theorem lookup_funValuation (f : String → Bool) : ∀ (l : List String) (n : String),
    n ∈ l → (funValuation l f).lookup n = some (f n) := by
  intro l
  induction l with
  | nil => intro n hn; cases hn
  | cons m ms ih =>
    intro n hn
    by_cases hm : n = m
    · simp [funValuation, List.lookup, hm]
    · have hn' : n ∈ ms := by
        cases List.mem_cons.mp hn with
        | inl h => exact absurd h hm
        | inr h => exact h
      have hbeq : (n == m) = false := by simp [hm]
      simpa [funValuation, List.lookup, hbeq] using ih n hn'

/-! ### Lemmas about variable collection -/

theorem mem_insertSorted (x n : String) : ∀ (l : List String),
    n ∈ insertSorted x l ↔ n = x ∨ n ∈ l := by
  intro l
  induction l with
  | nil => simp [insertSorted]
  | cons y ys ih =>
    by_cases h : strLe x y = true
    · simp [insertSorted, h]
    · simp only [insertSorted, h]
      simp [ih]
      tauto

theorem mem_sortStrings (n : String) : ∀ (l : List String),
    n ∈ sortStrings l ↔ n ∈ l := by
  intro l
  induction l with
  | nil => simp [sortStrings]
  | cons x xs ih => simp [sortStrings, mem_insertSorted, ih]

theorem mem_varsUnion (n : String) : ∀ (es : List Expr),
    n ∈ varsUnion es ↔ ∃ e ∈ es, n ∈ e.varsList := by
  intro es
  induction es with
  | nil => simp [varsUnion]
  | cons e es ih =>
    simp only [varsUnion, List.foldr_cons, List.mem_append]
    rw [show (es.foldr (fun e acc => e.varsList ++ acc) []) = varsUnion es from rfl]
    simp [ih]

theorem mem_sortedVars (n : String) (es : List Expr) :
    n ∈ sortedVars es ↔ ∃ e ∈ es, n ∈ e.varsList := by
  rw [sortedVars, mem_sortStrings, List.mem_dedup, mem_varsUnion]

/-- Transfer of satisfiability between two enumerations that both cover
all free variables of the axioms. -/
theorem satisfies_transfer (axioms : List Expr) (S U : List String)
    (hS : ∀ a ∈ axioms, ∀ n ∈ a.varsList, n ∈ S)
    (hU : ∀ a ∈ axioms, ∀ n ∈ a.varsList, n ∈ U) :
    (∃ v ∈ all_valuations S, Satisfies axioms v) →
      ∃ w ∈ all_valuations U, Satisfies axioms w := by
  rintro ⟨v, hv, hsat⟩
  refine ⟨funValuation U (fun n => (v.lookup n).getD false),
    funValuation_mem_all_valuations U _, ?_⟩
  intro a ha
  have hagree : ∀ n ∈ a.varsList,
      (funValuation U (fun n => (v.lookup n).getD false)).lookup n = v.lookup n := by
    intro n hn
    rw [lookup_funValuation _ U n (hU a ha n hn)]
    obtain ⟨b, hb⟩ := Option.isSome_iff_exists.mp
      (mem_all_valuations_lookup_isSome hv n (hS a ha n hn))
    simp [hb]
  rw [eval_congr a _ v hagree]
  exact hsat a ha

/-! ### Lemmas about `is_satisfiable` -/

/-- Below the cap, the collection loop computes filter-then-take. -/
theorem satLoop_eq_take (axioms : List Expr) (m : Nat) :
    ∀ (vs acc : List Valuation), acc.length < m →
      satLoop axioms m vs acc = acc ++ (vs.filter (qual axioms)).take (m - acc.length) := by
  intro vs
  induction vs with
  | nil => intro acc _; simp [satLoop]
  | cons v rest ih =>
    intro acc hacc
    by_cases hq : qual axioms v = true
    · by_cases hcap : m ≤ (acc ++ [v]).length
      · have hm : m = acc.length + 1 := by
          simp only [List.length_append, List.length_cons, List.length_nil] at hcap
          omega
        have h1 : m - acc.length = 1 := by omega
        simp [satLoop, hq, hcap, hm, h1, List.filter_cons, List.take_succ_cons]
      · have hlt : (acc ++ [v]).length < m := by omega
        have := ih (acc ++ [v]) hlt
        simp only [satLoop, hq, if_true, hcap, if_false]
        rw [this]
        have hsub : m - acc.length = (m - (acc ++ [v]).length) + 1 := by
          simp only [List.length_append, List.length_cons, List.length_nil]
          omega
        simp [List.filter_cons, hq, hsub, List.take_succ_cons]
    · simp only [satLoop, hq, if_false]
      rw [ih acc hacc]
      simp [List.filter_cons, hq]

/-- With `max_models = 0`, the loop still collects the first qualifying
valuation: the cap is only checked after appending. -/
theorem satLoop_zero (axioms : List Expr) :
    ∀ (vs acc : List Valuation),
      satLoop axioms 0 vs acc = acc ++ (vs.filter (qual axioms)).take 1 := by
  intro vs
  induction vs with
  | nil => intro acc; simp [satLoop]
  | cons v rest ih =>
    intro acc
    by_cases hq : qual axioms v = true
    · simp [satLoop, hq, List.filter_cons, List.take_succ_cons]
    · simp only [satLoop, hq, if_false]
      rw [ih acc]
      simp [List.filter_cons, hq]

/-- For a positive cap, the returned model list is the first
`max_models` qualifying valuations in enumeration order. -/
theorem is_satisfiable_snd (axioms : List Expr) (m : Nat) (hm : 1 ≤ m) :
    (is_satisfiable axioms m).2 = specCollectedModels axioms m := by
  have := satLoop_eq_take axioms m (all_valuations (sortedVars axioms)) [] (by simpa using hm)
  simp only [is_satisfiable, specCollectedModels]
  rw [this]
  simp

/-- For every cap, the returned boolean is exact satisfiability over the
enumeration of the axioms' own variables. -/
theorem is_satisfiable_fst (axioms : List Expr) (m : Nat) :
    (is_satisfiable axioms m).1 = true ↔
      ∃ v ∈ all_valuations (sortedVars axioms), Satisfies axioms v := by
  have hmodels : (is_satisfiable axioms m).2 =
      ((all_valuations (sortedVars axioms)).filter (qual axioms)).take (max m 1) := by
    cases m with
    | zero =>
      have := satLoop_zero axioms (all_valuations (sortedVars axioms)) []
      simp only [is_satisfiable]
      rw [this]; simp
    | succ k =>
      have := satLoop_eq_take axioms (k+1) (all_valuations (sortedVars axioms)) []
        (by simp)
      simp only [is_satisfiable]
      rw [this]; simp
  have hfst : (is_satisfiable axioms m).1 = decide (0 < (is_satisfiable axioms m).2.length) := by
    simp [is_satisfiable]
  rw [hfst, hmodels]
  rw [decide_eq_true_iff]
  constructor
  · intro h
    have hne : ((all_valuations (sortedVars axioms)).filter (qual axioms)) ≠ [] := by
      intro hnil
      rw [hnil] at h
      simp at h
    obtain ⟨v, hv⟩ := List.exists_mem_of_ne_nil _ hne
    have := List.mem_filter.mp hv
    exact ⟨v, this.1, (qual_eq_true_iff axioms v).mp this.2⟩
  · rintro ⟨v, hv, hsat⟩
    have hmem : v ∈ (all_valuations (sortedVars axioms)).filter (qual axioms) :=
      List.mem_filter.mpr ⟨hv, (qual_eq_true_iff axioms v).mpr hsat⟩
    have hne : ((all_valuations (sortedVars axioms)).filter (qual axioms)) ≠ [] := by
      intro hnil; rw [hnil] at hmem; cases hmem
    have hpos : 0 < ((all_valuations (sortedVars axioms)).filter (qual axioms)).length :=
      List.length_pos.mpr hne
    rw [List.length_take]
    have : 0 < max m 1 := by omega
    omega

/-- Everything an axiom's variable list is a member of. -/
theorem axiom_vars_mem_sortedVars {axioms : List Expr} {a : Expr} (ha : a ∈ axioms) :
    ∀ n ∈ a.varsList, n ∈ sortedVars axioms := by
  intro n hn
  exact (mem_sortedVars n axioms).mpr ⟨a, ha, hn⟩

theorem axiom_vars_mem_sortedVars_append {axioms : List Expr} {p : Expr} {a : Expr}
    (ha : a ∈ axioms) :
    ∀ n ∈ a.varsList, n ∈ sortedVars (axioms ++ [p]) := by
  intro n hn
  exact (mem_sortedVars n (axioms ++ [p])).mpr ⟨a, by simp [ha], hn⟩

theorem prop_vars_mem_sortedVars_append {axioms : List Expr} {p : Expr} :
    ∀ n ∈ p.varsList, n ∈ sortedVars (axioms ++ [p]) := by
  intro n hn
  exact (mem_sortedVars n (axioms ++ [p])).mpr ⟨p, by simp, hn⟩

/-- On an enumerated valuation (which covers the proposition's free
variables), the counterexample test fails exactly when satisfaction of
the axioms forces the proposition. -/
theorem counterexample_cond_eq_false_iff (axioms : List Expr) (p : Expr) (v : Valuation)
    (hv : v ∈ all_valuations (sortedVars (axioms ++ [p]))) :
    counterexample_cond axioms p v = false ↔
      (Satisfies axioms v → p.eval v = some true) := by
  obtain ⟨b, hb⟩ := Option.isSome_iff_exists.mp
    (eval_isSome p v (fun n hn =>
      mem_all_valuations_lookup_isSome hv n (prop_vars_mem_sortedVars_append n hn)))
  by_cases hq : qual axioms v = true
  · have hsat := (qual_eq_true_iff axioms v).mp hq
    cases b with
    | false => simp [counterexample_cond, hq, hb, hsat]
    | true => simp [counterexample_cond, hq, hb]
  · have hq' : qual axioms v = false := by revert hq; cases qual axioms v <;> simp
    have hnsat : ¬ Satisfies axioms v := fun hs => hq ((qual_eq_true_iff axioms v).mpr hs)
    simp [counterexample_cond, hq', hnsat]

/-- In the unsatisfiable case, no enumerated valuation over the larger
variable set satisfies the axioms either. -/
theorem no_satisfier_of_unsat (axioms : List Expr) (p : Expr)
    (hsat : (is_satisfiable axioms 1000000).1 = false) :
    ∀ v ∈ all_valuations (sortedVars (axioms ++ [p])), ¬ Satisfies axioms v := by
  intro v hv hs
  have htrans := satisfies_transfer axioms (sortedVars (axioms ++ [p])) (sortedVars axioms)
    (fun a ha => axiom_vars_mem_sortedVars_append ha)
    (fun a ha => axiom_vars_mem_sortedVars ha) ⟨v, hv, hs⟩
  have := (is_satisfiable_fst axioms 1000000).mpr htrans
  simp [hsat] at this

/-- C1: `entails(axioms, proposition)` is true iff every valuation over
the sorted union of the free variables of the axioms and the proposition
that satisfies all axioms also satisfies the proposition; in particular,
when the axioms are unsatisfiable (no enumerated valuation over their
own variables satisfies them all), `entails` returns true for any
proposition (ex falso quodlibet). -/
theorem entails_correct (axioms : List Expr) (p : Expr) :
    (entails axioms p = true ↔
      ∀ v ∈ all_valuations (sortedVars (axioms ++ [p])),
        (∀ a ∈ axioms, a.eval v = some true) → p.eval v = some true)
    ∧ ((∀ v ∈ all_valuations (sortedVars axioms),
          ¬ ∀ a ∈ axioms, a.eval v = some true) →
        entails axioms p = true) := by
  constructor
  · by_cases hsat : (is_satisfiable axioms 1000000).1 = false
    · have hent : entails axioms p = true := by simp [entails, hsat]
      have hrhs : ∀ v ∈ all_valuations (sortedVars (axioms ++ [p])),
          (∀ a ∈ axioms, a.eval v = some true) → p.eval v = some true :=
        fun v hv hall => absurd hall (no_satisfier_of_unsat axioms p hsat v hv)
      exact iff_of_true hent hrhs
    · have hsat' : (is_satisfiable axioms 1000000).1 = true := by
        revert hsat; cases (is_satisfiable axioms 1000000).1 <;> simp
      have hent : entails axioms p =
          !((all_valuations (sortedVars (axioms ++ [p]))).any
              (counterexample_cond axioms p)) := by
        simp [entails, hsat']
      rw [hent, Bool.not_eq_true']
      rw [List.any_eq_false]
      constructor
      · intro h v hv hall
        have := (counterexample_cond_eq_false_iff axioms p v hv).mp
          (by simpa using h v hv)
        exact this hall
      · intro h v hv
        simpa using (counterexample_cond_eq_false_iff axioms p v hv).mpr (h v hv)
  · intro h
    have hno : ¬ ∃ v ∈ all_valuations (sortedVars axioms), Satisfies axioms v := by
      rintro ⟨v, hv, hs⟩
      exact h v hv hs
    have hne : (is_satisfiable axioms 1000000).1 ≠ true :=
      fun ht => hno ((is_satisfiable_fst axioms 1000000).mp ht)
    have hf : (is_satisfiable axioms 1000000).1 = false := by
      revert hne; cases (is_satisfiable axioms 1000000).1 <;> simp
    simp [entails, hf]

/-- Witness for C1: contradictory axioms entail anything.  With axioms
`[A & ~A]`, no valuation satisfies them, and `entails` returns true for
the unrelated proposition `B`. -/
theorem entails_correct_witness :
    (∀ v ∈ all_valuations (sortedVars [Expr.And (.Var "A") (.Not (.Var "A"))]),
      ¬ ∀ a ∈ [Expr.And (.Var "A") (.Not (.Var "A"))], a.eval v = some true) ∧
    entails [Expr.And (.Var "A") (.Not (.Var "A"))] (Expr.Var "B") = true :=
  ⟨by decide,
   (entails_correct [Expr.And (.Var "A") (.Not (.Var "A"))] (Expr.Var "B")).2 (by decide)⟩

/-- C2: `entails` is true exactly when `find_counterexample` finds
nothing. -/
theorem entails_iff_no_counterexample (axioms : List Expr) (p : Expr) :
    entails axioms p = true ↔ find_counterexample axioms p = none := by
  by_cases hsat : (is_satisfiable axioms 1000000).1 = false
  · have hent : entails axioms p = true := by simp [entails, hsat]
    rw [hent]
    constructor
    · intro _
      rw [find_counterexample, List.find?_eq_none]
      intro v hv hcond
      have hq : qual axioms v = true := by
        have h' := hcond
        simp only [counterexample_cond, Bool.and_eq_true] at h'
        exact h'.1
      exact no_satisfier_of_unsat axioms p hsat v hv ((qual_eq_true_iff axioms v).mp hq)
    · intro _; rfl
  · have hsat' : (is_satisfiable axioms 1000000).1 = true := by
      revert hsat; cases (is_satisfiable axioms 1000000).1 <;> simp
    have hent : entails axioms p =
        !((all_valuations (sortedVars (axioms ++ [p]))).any
            (counterexample_cond axioms p)) := by
      simp [entails, hsat']
    rw [hent, Bool.not_eq_true', List.any_eq_false, find_counterexample,
      List.find?_eq_none]

/-- C3 counterexample: with `maxModels = 0` and the satisfiable axiom
list `[A]`, the code still returns one collected model and `True`
(the cap `len(models) >= max_models` is only checked after appending),
whereas stopping as soon as zero models are collected — the claim's
reading — would return the empty model list (`specCollectedModels`
truncates the qualifying valuations to the bound). -/
theorem is_satisfiable_cap_zero_counterexample :
    is_satisfiable [Expr.Var "A"] 0 = (true, [[("A", true)]]) ∧
    specCollectedModels [Expr.Var "A"] 0 = [] := by decide

/-- C3 amended: for every `maxModels ≥ 1`, `is_satisfiable` returns the
boolean "some valuation over the sorted union of the axioms' free
variables satisfies every axiom" together with the first `maxModels`
qualifying valuations in enumeration order (collection stops at the
cap). -/
theorem is_satisfiable_correct (axioms : List Expr) (m : Nat) (hm : 1 ≤ m) :
    ((is_satisfiable axioms m).1 = true ↔
      ∃ v ∈ all_valuations (sortedVars axioms), ∀ a ∈ axioms, a.eval v = some true)
    ∧ (is_satisfiable axioms m).2 = specCollectedModels axioms m :=
  ⟨is_satisfiable_fst axioms m, is_satisfiable_snd axioms m hm⟩

/-- Witness for C3's amended claim at `axioms = [A]`, `maxModels = 1`. -/
theorem is_satisfiable_correct_witness :
    1 ≤ 1 ∧
    (((is_satisfiable [Expr.Var "A"] 1).1 = true ↔
      ∃ v ∈ all_valuations (sortedVars [Expr.Var "A"]),
        ∀ a ∈ [Expr.Var "A"], a.eval v = some true)
    ∧ (is_satisfiable [Expr.Var "A"] 1).2 = specCollectedModels [Expr.Var "A"] 1) :=
  ⟨by decide, is_satisfiable_correct [Expr.Var "A"] 1 (by decide)⟩

/-! ### The counterexample search (C4) -/

/-- First-match characterization of `List.find?`. -/
theorem find?_eq_some_split {α : Type} (p : α → Bool) :
    ∀ (l : List α) (v : α), l.find? p = some v →
      ∃ pre post, l = pre ++ v :: post ∧ (∀ w ∈ pre, p w = false) ∧ p v = true := by
  intro l
  induction l with
  | nil => intro v h; cases h
  | cons a t ih =>
    intro v h
    by_cases hp : p a = true
    · rw [List.find?_cons_of_pos _ hp] at h
      cases h
      exact ⟨[], t, rfl, by simp, hp⟩
    · have hp' : p a = false := by revert hp; cases p a <;> simp
      rw [List.find?_cons_of_neg _ (by simp [hp'])] at h
      obtain ⟨pre, post, rfl, hpre, hv⟩ := ih v h
      refine ⟨a :: pre, post, rfl, ?_, hv⟩
      intro w hw
      rcases List.mem_cons.mp hw with h1 | h2
      · rw [h1]; exact hp'
      · exact hpre w h2

/-- The enumeration visits exactly the `n`-bit counting sequence: tuple
`i` is the binary expansion of `i`, most significant bit first (the
first variable is the slowest-varying position, as with
`itertools.product`). -/
theorem boolTuples_eq_range : ∀ n, boolTuples n = (List.range (2 ^ n)).map (natBits n) := by
  intro n
  induction n with
  | zero => rfl
  | succ n ih =>
    have h2 : 2 ^ (n+1) = 2 ^ n + 2 ^ n := by rw [pow_succ]; ring
    rw [h2, List.range_add, List.map_append]
    have hL : (List.range (2 ^ n)).map (natBits (n+1)) =
        (boolTuples n).map (fun t => false :: t) := by
      rw [ih, List.map_map]
      apply List.map_congr_left
      intro i hi
      have hilt : i < 2 ^ n := List.mem_range.mp hi
      have hle : ¬ (2 ^ n ≤ i) := by omega
      simp [Function.comp, natBits, hle, Nat.mod_eq_of_lt hilt]
    have hR : ((List.range (2 ^ n)).map (2 ^ n + ·)).map (natBits (n+1)) =
        (boolTuples n).map (fun t => true :: t) := by
      rw [List.map_map, ih, List.map_map]
      apply List.map_congr_left
      intro i hi
      have hilt : i < 2 ^ n := List.mem_range.mp hi
      have hle : 2 ^ n ≤ 2 ^ n + i := by omega
      have hmod : (2 ^ n + i) % 2 ^ n = i := by
        rw [Nat.add_mod_left]
        exact Nat.mod_eq_of_lt hilt
      simp [Function.comp, natBits, hle, hmod]
    rw [hL, hR]
    simp [boolTuples]

/-- C4: `find_counterexample` returns the first valuation, in the
canonical enumeration order over the lexicographically sorted union of
all free variables (the counting order `0..2^n - 1`, first variable =
most significant bit), that satisfies every axiom and falsifies the
proposition; it returns `none` exactly when no enumerated valuation
does; concretely, for axioms `[A]` and proposition `A & B` it returns
`{A: true, B: false}`. -/
theorem find_counterexample_correct (axioms : List Expr) (p : Expr) :
    (∀ v, find_counterexample axioms p = some v →
        ∃ pre post,
          all_valuations (sortedVars (axioms ++ [p])) = pre ++ v :: post ∧
          (∀ w ∈ pre, counterexample_cond axioms p w = false) ∧
          counterexample_cond axioms p v = true)
    ∧ (find_counterexample axioms p = none →
        ∀ v ∈ all_valuations (sortedVars (axioms ++ [p])),
          counterexample_cond axioms p v = false)
    ∧ all_valuations (sortedVars (axioms ++ [p])) =
        (List.range (2 ^ (sortedVars (axioms ++ [p])).length)).map
          (fun i => (sortedVars (axioms ++ [p])).zip
            (natBits (sortedVars (axioms ++ [p])).length i))
    ∧ find_counterexample [Expr.Var "A"] (Expr.And (.Var "A") (.Var "B")) =
        some [("A", true), ("B", false)] := by
  refine ⟨?_, ?_, ?_, by decide⟩
  · intro v h
    exact find?_eq_some_split (counterexample_cond axioms p)
      (all_valuations (sortedVars (axioms ++ [p]))) v h
  · intro h v hv
    have := List.find?_eq_none.mp h v hv
    revert this
    cases counterexample_cond axioms p v <;> simp
  · rw [all_valuations, boolTuples_eq_range, List.map_map]
    rfl

/-- Witness for C4: for axioms `[A]` and proposition `A & B`, the value
returned by `find_counterexample` (namely `{A: true, B: false}`) splits
the enumeration into earlier valuations that all fail the test and the
returned one, which passes it. -/
theorem find_counterexample_correct_witness :
    ∃ pre post,
      all_valuations (sortedVars ([Expr.Var "A"] ++ [Expr.And (.Var "A") (.Var "B")])) =
        pre ++ [("A", true), ("B", false)] :: post ∧
      (∀ w ∈ pre,
        counterexample_cond [Expr.Var "A"] (Expr.And (.Var "A") (.Var "B")) w = false) ∧
      counterexample_cond [Expr.Var "A"] (Expr.And (.Var "A") (.Var "B"))
        [("A", true), ("B", false)] = true :=
  (find_counterexample_correct [Expr.Var "A"] (Expr.And (.Var "A") (.Var "B"))).1
    [("A", true), ("B", false)] (by decide)

/-! ### Tautology / contradiction duality (C5) -/

/-- C5: `is_tautology e` equals `is_contradiction (Not e)`, and
semantically: `e` is true under every enumerated valuation over its free
variables exactly when `Not e` is false under every such valuation. -/
theorem tautology_contradiction_dual (e : Expr) :
    is_tautology e = is_contradiction (Expr.Not e)
    ∧ ((∀ v ∈ all_valuations (sortedVars [e]), e.eval v = some true) ↔
        ∀ v ∈ all_valuations (sortedVars [e]), (Expr.Not e).eval v = some false) := by
  have hpt : ∀ v : Valuation, ((Expr.Not e).eval v = some false) ↔ (e.eval v = some true) := by
    intro v
    cases he : e.eval v with
    | none => simp [Expr.eval, he]
    | some b => cases b <;> simp [Expr.eval, he]
  constructor
  · have hvars : sortedVars [Expr.Not e] = sortedVars [e] := rfl
    rw [is_tautology, is_contradiction, hvars]
    apply congrArg
    funext v
    cases he : e.eval v with
    | none => simp [Expr.eval, he]
    | some b => cases b <;> simp [Expr.eval, he]
  · constructor
    · intro h v hv
      exact (hpt v).mpr (h v hv)
    · intro h v hv
      exact (hpt v).mp (h v hv)

/-! ### Evaluation of Implies and Iff (C6) -/

/-- C6: under the valuation `{a: x, b: y}` (two distinct names),
`Implies(Var a, Var b)` evaluates to `(not x) or y` and
`Iff(Var a, Var b)` evaluates to `x == y`. -/
theorem implies_iff_eval (a b : String) (x y : Bool) (h : a ≠ b) :
    (Expr.Implies (.Var a) (.Var b)).eval [(a, x), (b, y)] = some (!x || y)
    ∧ (Expr.Iff (.Var a) (.Var b)).eval [(a, x), (b, y)] = some (x == y) := by
  have hba : (b == a) = false := by simp [Ne.symm h]
  constructor
  · simp only [Expr.eval, List.lookup, beq_self_eq_true, hba]
    cases x <;> cases y <;> simp
  · simp only [Expr.eval, List.lookup, beq_self_eq_true, hba]
    cases x <;> cases y <;> simp

/-- Witness for C6 at `a = "a"`, `b = "b"`, `x = true`, `y = false`. -/
theorem implies_iff_eval_witness :
    ("a" : String) ≠ "b" ∧
    ((Expr.Implies (.Var "a") (.Var "b")).eval [("a", true), ("b", false)] =
        some (!true || false)
     ∧ (Expr.Iff (.Var "a") (.Var "b")).eval [("a", true), ("b", false)] =
        some (true == false)) :=
  ⟨by decide, implies_iff_eval "a" "b" true false (by decide)⟩

/-! ### Evaluation depends only on the free variables (C10) -/

/-- C10: two valuations that are both defined on the expression's free
variables and agree there give the same evaluation result. -/
theorem eval_depends_only_on_free_vars (e : Expr) (v1 v2 : Valuation)
    (_h1 : ∀ n ∈ e.varsList, (v1.lookup n).isSome = true)
    (_h2 : ∀ n ∈ e.varsList, (v2.lookup n).isSome = true)
    (hagree : ∀ n ∈ e.varsList, v1.lookup n = v2.lookup n) :
    e.eval v1 = e.eval v2 :=
  eval_congr e v1 v2 hagree

/-- Witness for C10: `A & B` evaluated under `{A: true, B: false,
C: true}` and under `{B: false, A: true}` (different order, extra
irrelevant binding) gives the same result. -/
theorem eval_depends_only_on_free_vars_witness :
    (∀ n ∈ (Expr.And (.Var "A") (.Var "B")).varsList,
      (([("A", true), ("B", false), ("C", true)] : Valuation).lookup n).isSome = true) ∧
    (∀ n ∈ (Expr.And (.Var "A") (.Var "B")).varsList,
      (([("B", false), ("A", true)] : Valuation).lookup n).isSome = true) ∧
    (∀ n ∈ (Expr.And (.Var "A") (.Var "B")).varsList,
      ([("A", true), ("B", false), ("C", true)] : Valuation).lookup n =
        ([("B", false), ("A", true)] : Valuation).lookup n) ∧
    (Expr.And (.Var "A") (.Var "B")).eval [("A", true), ("B", false), ("C", true)] =
      (Expr.And (.Var "A") (.Var "B")).eval [("B", false), ("A", true)] :=
  ⟨by decide, by decide, by decide,
   eval_depends_only_on_free_vars (Expr.And (.Var "A") (.Var "B"))
     [("A", true), ("B", false), ("C", true)] [("B", false), ("A", true)]
     (by decide) (by decide) (by decide)⟩

/-! ### Lexer lemmas -/

theorem length_dropWhile_le (p : Char → Bool) : ∀ (l : List Char),
    (l.dropWhile p).length ≤ l.length := by
  intro l
  induction l with
  | nil => simp [List.dropWhile]
  | cons a t ih =>
    by_cases h : p a = true <;> simp [List.dropWhile_cons, h]
    omega

theorem tokChars_fuel : ∀ (n : Nat) (l : List Char), l.length ≤ n →
    ∀ f, l.length ≤ f → tokChars f l = tokChars l.length l := by
  intro n
  induction n with
  | zero =>
    intro l hl f _
    have : l = [] := List.length_eq_zero.mp (Nat.le_zero.mp hl)
    subst this
    cases f <;> rfl
  | succ n ih =>
    intro l hl f hf
    cases l with
    | nil => cases f <;> rfl
    | cons c cs =>
      cases f with
      | zero => simp at hf
      | succ f2 =>
        have hn : cs.length ≤ n := by simpa using hl
        have hf2 : cs.length ≤ f2 := by simpa using hf
        have key : ∀ X : List Char, X.length ≤ cs.length →
            tokChars f2 X = tokChars cs.length X := by
          intro X hX
          rw [ih X (le_trans hX hn) f2 (le_trans hX hf2),
            ih X (le_trans hX hn) cs.length hX]
        show tokChars (f2 + 1) (c :: cs) = tokChars (cs.length + 1) (c :: cs)
        simp only [tokChars]
        split_ifs
        · exact key cs (Nat.le_refl _)
        · rw [key (cs.drop 2) (by simp)]
        · rw [key (cs.drop 1) (by simp)]
        · rw [key cs (Nat.le_refl _)]
        · rw [key (cs.dropWhile isIdentChar) (length_dropWhile_le _ cs)]
        · rw [key cs (Nat.le_refl _)]

theorem tokChars_eq_tokenizeChars (l : List Char) (f : Nat) (hf : l.length ≤ f) :
    tokChars f l = tokenizeChars l :=
  tokChars_fuel l.length l (Nat.le_refl _) f hf

/-- Characters that start identifiers are in no other lexical class. -/
theorem identStart_char_facts {c : Char} (h : isIdentStart c = true) :
    isPySpace c = false ∧ ¬ c = '<' ∧ ¬ c = '-' ∧
      ¬ c ∈ (['(', ')', '~', '&', '|'] : List Char) := by
  refine ⟨?_, ?_, ?_, ?_⟩
  · by_contra hc
    have hsp : isPySpace c = true := by revert hc; cases isPySpace c <;> simp
    have hd : ((((c = ' ' ∨ c = '\t') ∨ c = '\n') ∨ c = '\r') ∨ c = '\x0b') ∨ c = '\x0c' := by
      simpa [isPySpace, Bool.or_eq_true, decide_eq_true_iff] using hsp
    rcases hd with ((((rfl | rfl) | rfl) | rfl) | rfl) | rfl <;> exact absurd h (by decide)
  · intro he; rw [he] at h; exact absurd h (by decide)
  · intro he; rw [he] at h; exact absurd h (by decide)
  · intro hmem
    have hd : c = '(' ∨ c = ')' ∨ c = '~' ∨ c = '&' ∨ c = '|' := by simpa using hmem
    rcases hd with rfl | rfl | rfl | rfl | rfl <;> exact absurd h (by decide)

theorem takeWhile_append_of_all {p : Char → Bool} : ∀ (cs l : List Char),
    cs.all p = true →
      (cs ++ l).takeWhile p = cs ++ l.takeWhile p ∧
      (cs ++ l).dropWhile p = l.dropWhile p := by
  intro cs
  induction cs with
  | nil => intro l _; simp
  | cons a t ih =>
    intro l hall
    obtain ⟨ha, ht⟩ : p a = true ∧ t.all p = true := by simpa using hall
    have := ih l ht
    simp [List.takeWhile_cons, List.dropWhile_cons, ha, this.1, this.2]

theorem takeWhile_nil_of_head {p : Char → Bool} (l : List Char)
    (h : ∀ d ∈ l.head?, p d = false) : l.takeWhile p = [] ∧ l.dropWhile p = l := by
  cases l with
  | nil => simp
  | cons d t =>
    have := h d (by simp)
    simp [List.takeWhile_cons, List.dropWhile_cons, this]

/-- Scanning a whitespace character skips it. -/
theorem tok_space_step (c : Char) (l : List Char) (h : isPySpace c = true) :
    tokenizeChars (c :: l) = tokenizeChars l := by
  show tokChars (l.length + 1) (c :: l) = tokenizeChars l
  simp [tokChars, tokenizeChars, h]

/-- Scanning one of the single-character operator tokens. -/
theorem tok_single_step (c : Char) (l : List Char)
    (hmem : c ∈ (['(', ')', '~', '&', '|'] : List Char)) :
    tokenizeChars (c :: l) = String.mk [c] :: tokenizeChars l := by
  show tokChars (l.length + 1) (c :: l) = String.mk [c] :: tokenizeChars l
  have hd : c = '(' ∨ c = ')' ∨ c = '~' ∨ c = '&' ∨ c = '|' := by simpa using hmem
  rcases hd with rfl | rfl | rfl | rfl | rfl
  · simp [tokChars, tokenizeChars, show isPySpace '(' = false from rfl]
  · simp [tokChars, tokenizeChars, show isPySpace ')' = false from rfl]
  · simp [tokChars, tokenizeChars, show isPySpace '~' = false from rfl]
  · simp [tokChars, tokenizeChars, show isPySpace '&' = false from rfl]
  · simp [tokChars, tokenizeChars, show isPySpace '|' = false from rfl]

theorem tok_arrow_step (l : List Char) :
    tokenizeChars ('-' :: '>' :: l) = "->" :: tokenizeChars l := by
  show tokChars (('>' :: l).length + 1) ('-' :: '>' :: l) = "->" :: tokenizeChars l
  simp [tokChars, show isPySpace '-' = false from rfl,
    show isPySpace '>' = false from rfl, show isIdentStart '>' = false from rfl]
  rw [tokChars_eq_tokenizeChars l _ (by omega)]

theorem tok_iffop_step (l : List Char) :
    tokenizeChars ('<' :: '-' :: '>' :: l) = "<->" :: tokenizeChars l := by
  show tokChars (('-' :: '>' :: l).length + 1) ('<' :: '-' :: '>' :: l) =
    "<->" :: tokenizeChars l
  simp [tokChars, show isPySpace '<' = false from rfl]
  rw [tokChars_eq_tokenizeChars l _ (by omega)]

/-- Scanning a maximal identifier run. -/
theorem tok_ident_step (c : Char) (cs l : List Char)
    (hc : isIdentStart c = true) (hcs : cs.all isIdentChar = true)
    (hl : ∀ d ∈ l.head?, isIdentChar d = false) :
    tokenizeChars (c :: (cs ++ l)) = String.mk (c :: cs) :: tokenizeChars l := by
  obtain ⟨hsp, hlt, hmin, hmem⟩ := identStart_char_facts hc
  obtain ⟨htw, hdw⟩ := takeWhile_append_of_all cs l hcs
  obtain ⟨htw2, hdw2⟩ := takeWhile_nil_of_head l hl
  show tokChars ((cs ++ l).length + 1) (c :: (cs ++ l)) = _
  have h1 : ¬ (c = '<' ∧ List.take 2 (cs ++ l) = ['-', '>']) := fun hand => hlt hand.1
  have h2 : ¬ (c = '-' ∧ List.take 1 (cs ++ l) = ['>']) := fun hand => hmin hand.1
  simp only [tokChars, hsp, Bool.false_eq_true, if_false, hc, if_true, if_neg hmem]
  rw [if_neg h1, if_neg h2, htw, htw2, hdw, hdw2]
  rw [tokChars_eq_tokenizeChars l _ (by simp [List.length_append])]
  simp

/-- A whole identifier string, followed by a non-identifier character
(or nothing), is lexed as a single token. -/
theorem tok_identString_step (a : String) (l : List Char)
    (ha : isIdentString a = true) (hl : ∀ d ∈ l.head?, isIdentChar d = false) :
    tokenizeChars (a.data ++ l) = a :: tokenizeChars l := by
  cases hd : a.data with
  | nil => unfold isIdentString at ha; rw [hd] at ha; simp at ha
  | cons c cs =>
    unfold isIdentString at ha
    rw [hd] at ha
    simp only [Bool.and_eq_true] at ha
    rw [List.cons_append, tok_ident_step c cs l ha.1 ha.2 hl]
    congr 1
    rw [← hd]

/-- A whitespace-only character list lexes to no tokens. -/
theorem tokenizeChars_all_space : ∀ (l : List Char),
    l.all isPySpace = true → tokenizeChars l = [] := by
  intro l
  induction l with
  | nil => intro _; rfl
  | cons c t ih =>
    intro h
    obtain ⟨hc, ht⟩ : isPySpace c = true ∧ t.all isPySpace = true := by simpa using h
    rw [tok_space_step c t hc]
    exact ih ht

theorem empty_input_rejected (s : String) (h : s.data.all isPySpace = true) :
    tokenize s = [] ∧ parse s = .error .EmptyExpression := by
  have ht : tokenize s = [] := tokenizeChars_all_space s.data h
  exact ⟨ht, by simp [parse, ht]⟩

theorem empty_input_rejected_witness :
    (" " : String).data.all isPySpace = true ∧
    (tokenize " " = [] ∧ parse " " = .error .EmptyExpression) :=
  ⟨by decide, empty_input_rejected " " (by decide)⟩



/-! ### Parser lemmas -/

theorem isIdentString_facts {t : String} (h : isIdentString t = true) :
    isVarToken t = true ∧ t ≠ "(" ∧ t ≠ ")" ∧ t ≠ "~" ∧ t ≠ "&" ∧ t ≠ "|" ∧
      t ≠ "->" ∧ t ≠ "<->" := by
  have hv : isVarToken t = true := by
    unfold isVarToken
    unfold isIdentString at h
    cases hd : t.data with
    | nil => rw [hd] at h; simp at h
    | cons c cs =>
      rw [hd] at h
      simp only [Bool.and_eq_true] at h
      simp [h.1]
  refine ⟨hv, ?_, ?_, ?_, ?_, ?_, ?_, ?_⟩ <;>
    · intro he; rw [he] at h; exact absurd h (by decide)

theorem head_ne_of_ne {u0 s : String} (h : u0 ≠ s) (rest : List String) :
    ∀ u ∈ ((u0 :: rest).head?), u ≠ s := by
  simp [h]

theorem head_ne_nil (s : String) : ∀ u ∈ (([] : List String).head?), u ≠ s := by
  simp

theorem parse_atom_ident (f : Nat) (t : String) (rest : List String)
    (h : isVarToken t = true) (hparen : t ≠ "(") :
    parse_atom (f+1) (t :: rest) = .ok (.Var t, rest) := by
  simp [parse_atom, hparen, h]

theorem parse_not_ident (f : Nat) (t : String) (rest : List String)
    (h : isVarToken t = true) (hparen : t ≠ "(") (htilde : t ≠ "~") :
    parse_not (f+1+1) (t :: rest) = .ok (.Var t, rest) := by
  simp only [parse_not, htilde, if_false]
  exact parse_atom_ident f t rest h hparen

theorem parse_and_loop_exit (f : Nat) (left : Expr) (ts : List String)
    (h : ∀ u ∈ ts.head?, u ≠ "&") :
    parse_and_loop (f+1) left ts = .ok (left, ts) := by
  cases ts with
  | nil => simp [parse_and_loop]
  | cons u rest =>
    have := h u (by simp)
    simp [parse_and_loop, this]

theorem parse_or_loop_exit (f : Nat) (left : Expr) (ts : List String)
    (h : ∀ u ∈ ts.head?, u ≠ "|") :
    parse_or_loop (f+1) left ts = .ok (left, ts) := by
  cases ts with
  | nil => simp [parse_or_loop]
  | cons u rest =>
    have := h u (by simp)
    simp [parse_or_loop, this]

theorem parse_iff_loop_exit (f : Nat) (left : Expr) (ts : List String)
    (h : ∀ u ∈ ts.head?, u ≠ "<->") :
    parse_iff_loop (f+1) left ts = .ok (left, ts) := by
  cases ts with
  | nil => simp [parse_iff_loop]
  | cons u rest =>
    have := h u (by simp)
    simp [parse_iff_loop, this]

theorem parse_and_ident (f : Nat) (t : String) (rest : List String)
    (h : isVarToken t = true) (hparen : t ≠ "(") (htilde : t ≠ "~")
    (hamp : ∀ u ∈ rest.head?, u ≠ "&") :
    parse_and (f+1+1+1) (t :: rest) = .ok (.Var t, rest) := by
  simp only [parse_and]
  rw [parse_not_ident f t rest h hparen htilde]
  exact parse_and_loop_exit (f+1) (.Var t) rest hamp

theorem parse_or_ident (f : Nat) (t : String) (rest : List String)
    (h : isVarToken t = true) (hparen : t ≠ "(") (htilde : t ≠ "~")
    (hamp : ∀ u ∈ rest.head?, u ≠ "&") (hpipe : ∀ u ∈ rest.head?, u ≠ "|") :
    parse_or (f+1+1+1+1) (t :: rest) = .ok (.Var t, rest) := by
  simp only [parse_or]
  rw [parse_and_ident f t rest h hparen htilde hamp]
  exact parse_or_loop_exit (f+1+1) (.Var t) rest hpipe

theorem parse_imp_ident (f : Nat) (t : String) (rest : List String)
    (h : isVarToken t = true) (hparen : t ≠ "(") (htilde : t ≠ "~")
    (hamp : ∀ u ∈ rest.head?, u ≠ "&") (hpipe : ∀ u ∈ rest.head?, u ≠ "|")
    (harrow : ∀ u ∈ rest.head?, u ≠ "->") :
    parse_imp (f+1+1+1+1+1) (t :: rest) = .ok (.Var t, rest) := by
  simp only [parse_imp]
  rw [parse_or_ident f t rest h hparen htilde hamp hpipe]
  cases rest with
  | nil => rfl
  | cons u rest2 =>
    have := harrow u (by simp)
    simp [this]

theorem parse_iff_ident (f : Nat) (t : String) (rest : List String)
    (h : isVarToken t = true) (hparen : t ≠ "(") (htilde : t ≠ "~")
    (hamp : ∀ u ∈ rest.head?, u ≠ "&") (hpipe : ∀ u ∈ rest.head?, u ≠ "|")
    (harrow : ∀ u ∈ rest.head?, u ≠ "->") (hiffop : ∀ u ∈ rest.head?, u ≠ "<->") :
    parse_iff (f+1+1+1+1+1+1) (t :: rest) = .ok (.Var t, rest) := by
  simp only [parse_iff]
  rw [parse_imp_ident f t rest h hparen htilde hamp hpipe harrow]
  exact parse_iff_loop_exit (f+1+1+1+1) (.Var t) rest hiffop


theorem parse_iff_of_imp (f : Nat) (ts : List String) (e : Expr)
    (h : parse_imp (f+1) ts = .ok (e, [])) :
    parse_iff (f+1+1) ts = .ok (e, []) := by
  simp only [parse_iff]
  rw [h]
  exact parse_iff_loop_exit f e [] (head_ne_nil _)

theorem parse_imp_of_or (f : Nat) (ts : List String) (e : Expr)
    (h : parse_or (f+1) ts = .ok (e, [])) :
    parse_imp (f+1+1) ts = .ok (e, []) := by
  simp only [parse_imp]
  rw [h]

theorem parse_or_of_and (f : Nat) (ts : List String) (e : Expr)
    (h : parse_and (f+1) ts = .ok (e, [])) :
    parse_or (f+1+1) ts = .ok (e, []) := by
  simp only [parse_or]
  rw [h]
  exact parse_or_loop_exit f e [] (head_ne_nil _)

theorem parse_and_of_not (f : Nat) (ts : List String) (e : Expr)
    (h : parse_not (f+1) ts = .ok (e, [])) :
    parse_and (f+1+1) ts = .ok (e, []) := by
  simp only [parse_and]
  rw [h]
  exact parse_and_loop_exit f e [] (head_ne_nil _)

theorem parse_or_pipe_chain (f : Nat) (a b c : String)
    (ha : isIdentString a = true) (hb : isIdentString b = true)
    (hc : isIdentString c = true) :
    parse_or (f+8) [a, "|", b, "|", c] =
      .ok (.Or (.Or (.Var a) (.Var b)) (.Var c), []) := by
  obtain ⟨hva, hpa, _, hta, _, _, _, _⟩ := isIdentString_facts ha
  obtain ⟨hvb, hpb, _, htb, _, _, _, _⟩ := isIdentString_facts hb
  obtain ⟨hvc, hpc, _, htc, _, _, _, _⟩ := isIdentString_facts hc
  have ea : parse_and (f+7) [a, "|", b, "|", c] = .ok (.Var a, ["|", b, "|", c]) :=
    parse_and_ident (f+4) a _ hva hpa hta (head_ne_of_ne (by decide) _)
  have eb : parse_and (f+6) [b, "|", c] = .ok (.Var b, ["|", c]) :=
    parse_and_ident (f+3) b _ hvb hpb htb (head_ne_of_ne (by decide) _)
  have ec : parse_and (f+5) [c] = .ok (.Var c, []) :=
    parse_and_ident (f+2) c _ hvc hpc htc (head_ne_nil _)
  simp [parse_or, parse_or_loop, ea, eb, ec]

theorem parse_and_amp_chain (f : Nat) (a b c : String)
    (ha : isIdentString a = true) (hb : isIdentString b = true)
    (hc : isIdentString c = true) :
    parse_and (f+6) [a, "&", b, "&", c] =
      .ok (.And (.And (.Var a) (.Var b)) (.Var c), []) := by
  obtain ⟨hva, hpa, _, hta, _, _, _, _⟩ := isIdentString_facts ha
  obtain ⟨hvb, hpb, _, htb, _, _, _, _⟩ := isIdentString_facts hb
  obtain ⟨hvc, hpc, _, htc, _, _, _, _⟩ := isIdentString_facts hc
  have ea : parse_not (f+5) [a, "&", b, "&", c] = .ok (.Var a, ["&", b, "&", c]) :=
    parse_not_ident (f+3) a _ hva hpa hta
  have eb : parse_not (f+4) [b, "&", c] = .ok (.Var b, ["&", c]) :=
    parse_not_ident (f+2) b _ hvb hpb htb
  have ec : parse_not (f+3) [c] = .ok (.Var c, []) :=
    parse_not_ident (f+1) c _ hvc hpc htc
  simp [parse_and, parse_and_loop, ea, eb, ec]

theorem parse_iff_iffop_chain (f : Nat) (a b c : String)
    (ha : isIdentString a = true) (hb : isIdentString b = true)
    (hc : isIdentString c = true) :
    parse_iff (f+8) [a, "<->", b, "<->", c] =
      .ok (.Iff (.Iff (.Var a) (.Var b)) (.Var c), []) := by
  obtain ⟨hva, hpa, _, hta, _, _, _, _⟩ := isIdentString_facts ha
  obtain ⟨hvb, hpb, _, htb, _, _, _, _⟩ := isIdentString_facts hb
  obtain ⟨hvc, hpc, _, htc, _, _, _, _⟩ := isIdentString_facts hc
  have ea : parse_imp (f+7) [a, "<->", b, "<->", c] =
      .ok (.Var a, ["<->", b, "<->", c]) :=
    parse_imp_ident (f+2) a _ hva hpa hta (head_ne_of_ne (by decide) _)
      (head_ne_of_ne (by decide) _) (head_ne_of_ne (by decide) _)
  have eb : parse_imp (f+6) [b, "<->", c] = .ok (.Var b, ["<->", c]) :=
    parse_imp_ident (f+1) b _ hvb hpb htb (head_ne_of_ne (by decide) _)
      (head_ne_of_ne (by decide) _) (head_ne_of_ne (by decide) _)
  have ec : parse_imp (f+5) [c] = .ok (.Var c, []) :=
    parse_imp_ident f c _ hvc hpc htc (head_ne_nil _) (head_ne_nil _) (head_ne_nil _)
  simp [parse_iff, parse_iff_loop, ea, eb, ec]

theorem parse_imp_arrow_chain (f : Nat) (a b c : String)
    (ha : isIdentString a = true) (hb : isIdentString b = true)
    (hc : isIdentString c = true) :
    parse_imp (f+7) [a, "->", b, "->", c] =
      .ok (.Implies (.Var a) (.Implies (.Var b) (.Var c)), []) := by
  obtain ⟨hva, hpa, _, hta, _, _, _, _⟩ := isIdentString_facts ha
  obtain ⟨hvb, hpb, _, htb, _, _, _, _⟩ := isIdentString_facts hb
  obtain ⟨hvc, hpc, _, htc, _, _, _, _⟩ := isIdentString_facts hc
  have ea : parse_or (f+6) [a, "->", b, "->", c] = .ok (.Var a, ["->", b, "->", c]) :=
    parse_or_ident (f+2) a _ hva hpa hta (head_ne_of_ne (by decide) _)
      (head_ne_of_ne (by decide) _)
  have eb : parse_or (f+5) [b, "->", c] = .ok (.Var b, ["->", c]) :=
    parse_or_ident (f+1) b _ hvb hpb htb (head_ne_of_ne (by decide) _)
      (head_ne_of_ne (by decide) _)
  have ec : parse_or (f+4) [c] = .ok (.Var c, []) :=
    parse_or_ident f c _ hvc hpc htc (head_ne_nil _) (head_ne_nil _)
  simp [parse_imp, ea, eb, ec]

theorem parse_not_tilde_step (f : Nat) (ts : List String) :
    parse_not (f+1) ("~" :: ts) =
      match parse_not f ts with
      | .ok (child, rest') => .ok (.Not child, rest')
      | .error e => .error e := by
  rw [parse_not]
  rw [if_pos rfl]

theorem parse_not_tildes (a : String)
    (hv : isVarToken a = true) (hp : a ≠ "(") (ht : a ≠ "~") :
    ∀ (n f : Nat), parse_not (n+f+2) (List.replicate n "~" ++ [a]) =
      .ok (notPow n (.Var a), []) := by
  intro n
  induction n with
  | zero =>
    intro f
    simp only [List.replicate, List.nil_append, Nat.zero_add]
    exact parse_not_ident f a [] hv hp ht
  | succ k ih =>
    intro f
    rw [show k+1+f+2 = (k+f+2)+1 from by omega]
    rw [List.replicate_succ, List.cons_append]
    rw [parse_not_tilde_step (k+f+2)]
    rw [ih f]
    rfl


theorem data_append (s t : String) : (s ++ t).data = s.data ++ t.data := rfl

theorem head_not_identChar_space (l : List Char) :
    ∀ d ∈ ((' ' :: l).head?), isIdentChar d = false := by
  intro d hd
  simp at hd
  subst hd
  decide

theorem tok_identString_nil (a : String) (ha : isIdentString a = true) :
    tokenizeChars a.data = [a] := by
  have h := tok_identString_step a [] ha (by simp)
  rw [List.append_nil] at h
  rw [h]
  rfl

theorem tokenize_pipe_chain (a b c : String)
    (ha : isIdentString a = true) (hb : isIdentString b = true)
    (hc : isIdentString c = true) :
    tokenize (a ++ " | " ++ b ++ " | " ++ c) = [a, "|", b, "|", c] := by
  unfold tokenize
  rw [data_append, data_append, data_append, data_append]
  rw [show (" | " : String).data = ' ' :: '|' :: [' '] from rfl]
  simp only [List.append_assoc, List.cons_append, List.nil_append]
  rw [tok_identString_step a _ ha (head_not_identChar_space _)]
  rw [tok_space_step _ _ (by decide)]
  rw [tok_single_step '|' _ (by decide)]
  rw [tok_space_step _ _ (by decide)]
  rw [tok_identString_step b _ hb (head_not_identChar_space _)]
  rw [tok_space_step _ _ (by decide)]
  rw [tok_single_step '|' _ (by decide)]
  rw [tok_space_step _ _ (by decide)]
  rw [tok_identString_nil c hc]

theorem tokenize_amp_chain (a b c : String)
    (ha : isIdentString a = true) (hb : isIdentString b = true)
    (hc : isIdentString c = true) :
    tokenize (a ++ " & " ++ b ++ " & " ++ c) = [a, "&", b, "&", c] := by
  unfold tokenize
  rw [data_append, data_append, data_append, data_append]
  rw [show (" & " : String).data = ' ' :: '&' :: [' '] from rfl]
  simp only [List.append_assoc, List.cons_append, List.nil_append]
  rw [tok_identString_step a _ ha (head_not_identChar_space _)]
  rw [tok_space_step _ _ (by decide)]
  rw [tok_single_step '&' _ (by decide)]
  rw [tok_space_step _ _ (by decide)]
  rw [tok_identString_step b _ hb (head_not_identChar_space _)]
  rw [tok_space_step _ _ (by decide)]
  rw [tok_single_step '&' _ (by decide)]
  rw [tok_space_step _ _ (by decide)]
  rw [tok_identString_nil c hc]

theorem tokenize_iffop_chain (a b c : String)
    (ha : isIdentString a = true) (hb : isIdentString b = true)
    (hc : isIdentString c = true) :
    tokenize (a ++ " <-> " ++ b ++ " <-> " ++ c) = [a, "<->", b, "<->", c] := by
  unfold tokenize
  rw [data_append, data_append, data_append, data_append]
  rw [show (" <-> " : String).data = ' ' :: '<' :: '-' :: '>' :: [' '] from rfl]
  simp only [List.append_assoc, List.cons_append, List.nil_append]
  rw [tok_identString_step a _ ha (head_not_identChar_space _)]
  rw [tok_space_step _ _ (by decide)]
  rw [tok_iffop_step]
  rw [tok_space_step _ _ (by decide)]
  rw [tok_identString_step b _ hb (head_not_identChar_space _)]
  rw [tok_space_step _ _ (by decide)]
  rw [tok_iffop_step]
  rw [tok_space_step _ _ (by decide)]
  rw [tok_identString_nil c hc]

theorem tokenize_arrow_chain (a b c : String)
    (ha : isIdentString a = true) (hb : isIdentString b = true)
    (hc : isIdentString c = true) :
    tokenize (a ++ " -> " ++ b ++ " -> " ++ c) = [a, "->", b, "->", c] := by
  unfold tokenize
  rw [data_append, data_append, data_append, data_append]
  rw [show (" -> " : String).data = ' ' :: '-' :: '>' :: [' '] from rfl]
  simp only [List.append_assoc, List.cons_append, List.nil_append]
  rw [tok_identString_step a _ ha (head_not_identChar_space _)]
  rw [tok_space_step _ _ (by decide)]
  rw [tok_arrow_step]
  rw [tok_space_step _ _ (by decide)]
  rw [tok_identString_step b _ hb (head_not_identChar_space _)]
  rw [tok_space_step _ _ (by decide)]
  rw [tok_arrow_step]
  rw [tok_space_step _ _ (by decide)]
  rw [tok_identString_nil c hc]

theorem tokenize_tildes (n : Nat) (a : String) (ha : isIdentString a = true) :
    tokenize (String.mk (List.replicate n '~') ++ a) = List.replicate n "~" ++ [a] := by
  unfold tokenize
  rw [data_append]
  rw [show (String.mk (List.replicate n '~')).data = List.replicate n '~' from rfl]
  induction n with
  | zero =>
    simp only [List.replicate, List.nil_append]
    rw [tok_identString_nil a ha]
  | succ k ih =>
    rw [List.replicate_succ, List.cons_append]
    rw [tok_single_step '~' _ (by decide)]
    rw [ih]
    rw [show (List.replicate (k+1) "~" : List String) = "~" :: List.replicate k "~" from
      List.replicate_succ "~" k]
    rfl

/-- Running the composed entry point when the whole token list parses. -/
theorem parse_of_parse_iff (s : String) (toks : List String) (e : Expr)
    (htok : tokenize s = toks) (hne : toks ≠ [])
    (hiff : parse_iff (9 * toks.length + 9) toks = .ok (e, [])) :
    parse s = .ok e := by
  simp only [parse, htok]
  rw [if_neg hne, hiff]


/-- C7: the parser's associativity policy.  For all identifiers `A`,
`B`, `C`: `|`, `&` and `<->` fold left, `->` folds right, and unary `~`
nests to the right with no limit. -/
theorem parser_associativity (a b c : String)
    (ha : isIdentString a = true) (hb : isIdentString b = true)
    (hc : isIdentString c = true) :
    parse (a ++ " | " ++ b ++ " | " ++ c) =
      .ok (.Or (.Or (.Var a) (.Var b)) (.Var c))
    ∧ parse (a ++ " & " ++ b ++ " & " ++ c) =
      .ok (.And (.And (.Var a) (.Var b)) (.Var c))
    ∧ parse (a ++ " <-> " ++ b ++ " <-> " ++ c) =
      .ok (.Iff (.Iff (.Var a) (.Var b)) (.Var c))
    ∧ parse (a ++ " -> " ++ b ++ " -> " ++ c) =
      .ok (.Implies (.Var a) (.Implies (.Var b) (.Var c)))
    ∧ ∀ n : Nat, parse (String.mk (List.replicate n '~') ++ a) =
      .ok (notPow n (.Var a)) := by
  obtain ⟨hva, hpa, _, hta, _, _, _, _⟩ := isIdentString_facts ha
  refine ⟨?_, ?_, ?_, ?_, ?_⟩
  · refine parse_of_parse_iff _ [a, "|", b, "|", c] _
      (tokenize_pipe_chain a b c ha hb hc) (by simp) ?_
    exact parse_iff_of_imp 52 _ _ (parse_imp_of_or 51 _ _
      (parse_or_pipe_chain 44 a b c ha hb hc))
  · refine parse_of_parse_iff _ [a, "&", b, "&", c] _
      (tokenize_amp_chain a b c ha hb hc) (by simp) ?_
    exact parse_iff_of_imp 52 _ _ (parse_imp_of_or 51 _ _
      (parse_or_of_and 50 _ _ (parse_and_amp_chain 45 a b c ha hb hc)))
  · refine parse_of_parse_iff _ [a, "<->", b, "<->", c] _
      (tokenize_iffop_chain a b c ha hb hc) (by simp) ?_
    exact parse_iff_iffop_chain 46 a b c ha hb hc
  · refine parse_of_parse_iff _ [a, "->", b, "->", c] _
      (tokenize_arrow_chain a b c ha hb hc) (by simp) ?_
    exact parse_iff_of_imp 52 _ _ (parse_imp_arrow_chain 46 a b c ha hb hc)
  · intro n
    refine parse_of_parse_iff _ (List.replicate n "~" ++ [a]) _
      (tokenize_tildes n a ha) (by simp) ?_
    have hlen : 9 * (List.replicate n "~" ++ [a] : List String).length + 9 =
        (9*n+16)+1+1 := by
      simp [List.length_append, List.length_replicate]
      omega
    rw [hlen]
    refine parse_iff_of_imp (9*n+16) _ _ ?_
    rw [show (9*n+16)+1 = (9*n+15)+1+1 from by omega]
    refine parse_imp_of_or (9*n+15) _ _ ?_
    rw [show (9*n+15)+1 = (9*n+14)+1+1 from by omega]
    refine parse_or_of_and (9*n+14) _ _ ?_
    rw [show (9*n+14)+1 = (9*n+13)+1+1 from by omega]
    refine parse_and_of_not (9*n+13) _ _ ?_
    rw [show (9*n+13)+1 = n+(8*n+12)+2 from by omega]
    exact parse_not_tildes a hva hpa hta n (8*n+12)

/-- Witness for C7 at the identifiers `A`, `B`, `C` (the left fold of
`|`). -/
theorem parser_associativity_witness :
    isIdentString "A" = true ∧ isIdentString "B" = true ∧ isIdentString "C" = true ∧
    parse ("A" ++ " | " ++ "B" ++ " | " ++ "C") =
      .ok (.Or (.Or (.Var "A") (.Var "B")) (.Var "C")) :=
  ⟨by decide, by decide, by decide,
   (parser_associativity "A" "B" "C" (by decide) (by decide) (by decide)).1⟩

/-- C9 counterexample: the input `"("` contains a `(` with no matching
`)`, yet parsing fails with `UnexpectedEndOfInput` (the expression after
the parenthesis is missing), not with `UnmatchedParenthesis`. -/
theorem unmatched_paren_counterexample :
    parse "(" = .error .UnexpectedEndOfInput ∧
    parse "(" ≠ .error .UnmatchedParenthesis := by decide

/-- C9 amended: when the tokens after `(` parse as a complete
subexpression and the next token is missing or is not `)`, `parse_atom`
fails with `UnmatchedParenthesis`; concretely, `parse("(A")` fails with
`UnmatchedParenthesis`. -/
theorem unmatched_paren (rest : List String) (f : Nat) (e : Expr) (rest2 : List String)
    (hin : parse_iff f rest = .ok (e, rest2))
    (hnr : ∀ u ∈ rest2.head?, u ≠ ")") :
    parse_atom (f+1) ("(" :: rest) = .error .UnmatchedParenthesis
    ∧ parse "(A" = .error .UnmatchedParenthesis := by
  constructor
  · simp only [parse_atom]
    rw [if_pos trivial, hin]
    cases rest2 with
    | nil => rfl
    | cons u r2 =>
      have := hnr u (by simp)
      simp [this]
  · decide

/-- Witness for C9's amended claim: inside `parse "(A"`, the
subexpression after `(` parses as `Var "A"` with no tokens left, and
`parse_atom` then reports the unmatched parenthesis. -/
theorem unmatched_paren_witness :
    parse_iff 10 ["A"] = .ok (.Var "A", []) ∧
    (∀ u ∈ (([] : List String).head?), u ≠ ")") ∧
    (parse_atom 11 ["(", "A"] = .error .UnmatchedParenthesis
     ∧ parse "(A" = .error .UnmatchedParenthesis) :=
  ⟨by decide, by simp,
   unmatched_paren ["A"] 10 (.Var "A") [] (by decide) (by simp)⟩

end Verificateur
